import Mathlib

/-
Verification development for the noq term-rewriting engine (src/main.rs).
The Rust code is shallowly embedded: pure functions become Lean functions,
the `&mut` strategy state and the `&mut` session state become explicit
state passing, `Result` becomes `Except`, and the possibly diverging
rewrite driver takes a fuel parameter (`none` = fuel ran out, which models
a computation that has not returned).
-/

namespace Noq

/-- Source location `{file?, row, col}`. It is carried around for
diagnostics only and never influences control flow. -/
structure Loc where
  file : Option String := none
  row : Nat := 1
  col : Nat := 1
deriving DecidableEq, Repr

/-- Value produced by the `loc_here!` macro inside the Replace meta-rule:
an arbitrary fixed location in the interpreter source. -/
def loc_here : Loc := {}

/-- Binary operator tags, from `enum Op` in src/main.rs. -/
inductive Op where
  | add
  | sub
  | mul
  | div
  | pow
deriving DecidableEq, Repr

/-- Mirrors `Op::MAX_PRECEDENCE`. -/
def Op.MAX_PRECEDENCE : Nat := 2

/-- Mirrors `Op::precedence`. -/
def Op.precedence : Op → Nat
  | .add | .sub => 0
  | .mul | .div => 1
  | .pow => 2

/-- Mirrors `impl fmt::Display for Op`. -/
def Op.display : Op → String
  | .add => "+"
  | .sub => "-"
  | .mul => "*"
  | .div => "/"
  | .pow => "^"

/-- The expression tree, from `enum Expr` in src/main.rs:
`Sym(String) | Var(String) | Fun(Box<Expr>, Vec<Expr>) | Op(Op, Box<Expr>, Box<Expr>)`. -/
inductive Expr where
  | sym : String → Expr
  | var : String → Expr
  | fn : Expr → List Expr → Expr
  | op : Op → Expr → Expr → Expr

mutual

/-- Structural equality test on expressions, mirroring the derived
`PartialEq` of the Rust `Expr`. -/
def Expr.beq : Expr → Expr → Bool
  | .sym a, .sym b => a == b
  | .var a, .var b => a == b
  | .fn h1 a1, .fn h2 a2 => h1.beq h2 && Expr.beqList a1 a2
  | .op o1 l1 r1, .op o2 l2 r2 => o1 == o2 && l1.beq l2 && r1.beq r2
  | _, _ => false

/-- Pointwise structural equality of argument vectors. -/
def Expr.beqList : List Expr → List Expr → Bool
  | [], [] => true
  | a :: as, b :: bs => a.beq b && Expr.beqList as bs
  | _, _ => false

end

mutual

theorem Expr.beq_iff : ∀ a b : Expr, Expr.beq a b = true ↔ a = b
  | .sym _, .sym _ => by simp [Expr.beq]
  | .sym _, .var _ => by simp [Expr.beq]
  | .sym _, .fn _ _ => by simp [Expr.beq]
  | .sym _, .op _ _ _ => by simp [Expr.beq]
  | .var _, .sym _ => by simp [Expr.beq]
  | .var _, .var _ => by simp [Expr.beq]
  | .var _, .fn _ _ => by simp [Expr.beq]
  | .var _, .op _ _ _ => by simp [Expr.beq]
  | .fn _ _, .sym _ => by simp [Expr.beq]
  | .fn _ _, .var _ => by simp [Expr.beq]
  | .fn h1 a1, .fn h2 a2 => by
    simp [Expr.beq, Expr.beq_iff h1 h2, Expr.beqList_iff a1 a2]
  | .fn _ _, .op _ _ _ => by simp [Expr.beq]
  | .op _ _ _, .sym _ => by simp [Expr.beq]
  | .op _ _ _, .var _ => by simp [Expr.beq]
  | .op _ _ _, .fn _ _ => by simp [Expr.beq]
  | .op o1 l1 r1, .op o2 l2 r2 => by
    simp [Expr.beq, Expr.beq_iff l1 l2, Expr.beq_iff r1 r2, and_assoc]

theorem Expr.beqList_iff : ∀ a b : List Expr, Expr.beqList a b = true ↔ a = b
  | [], [] => by simp [Expr.beqList]
  | [], _ :: _ => by simp [Expr.beqList]
  | _ :: _, [] => by simp [Expr.beqList]
  | a :: as, b :: bs => by
    simp [Expr.beqList, Expr.beq_iff a b, Expr.beqList_iff as bs]

end

instance : DecidableEq Expr := fun a b =>
  decidable_of_iff (Expr.beq a b = true) (Expr.beq_iff a b)

/-- Mirrors `var_or_sym_based_on_name`: an identifier whose first character
is uppercase or an underscore is a variable, anything else is a symbol.
The Rust code panics on an empty name (the lexer never produces one); the
empty-name branch here is an arbitrary total completion of that panic.
Rust's `char::is_uppercase` is restricted to its ASCII meaning, which
agrees with it on the identifiers the lexer produces. -/
def var_or_sym_based_on_name (name : String) : Expr :=
  match name.data with
  | [] => Expr.sym name
  | x :: _ => if x.isUpper ∨ x = '_' then Expr.var name else Expr.sym name

/-- The binding environment `type Bindings = HashMap<String, Expr>`,
modelled as an association list. The code only ever inserts a key after
`get` returned `None` for it, so prepending the new pair has exactly the
observable behavior of `HashMap::insert`. -/
def Bindings := List (String × Expr)

/-- Mirrors `HashMap::get`. -/
def Bindings.get (b : Bindings) (n : String) : Option Expr :=
  List.lookup n b

/-- Mirrors `HashMap::insert` under the invariant that `n` is unbound. -/
def Bindings.insert (b : Bindings) (n : String) (v : Expr) : Bindings :=
  (n, v) :: b

mutual

/-- Mirrors `pattern_match_impl` from src/main.rs. The `&mut Bindings`
argument becomes explicit state passing: the function returns the match
result together with the bindings as mutated so far (mutations are not
rolled back on failure, exactly as in the source). -/
def pattern_match_impl : Expr → Expr → Bindings → Bool × Bindings
  | .sym name1, .sym name2, bindings => (name1 == name2, bindings)
  | .var name, value, bindings =>
    if name == "_" then (true, bindings)
    else
      match bindings.get name with
      | some bound_value => (bound_value == value, bindings)
      | none => (true, bindings.insert name value)
  | .op op1 lhs1 rhs1, .op op2 lhs2 rhs2, bindings =>
    if op1 == op2 then
      match pattern_match_impl lhs1 lhs2 bindings with
      | (true, b1) => pattern_match_impl rhs1 rhs2 b1
      | (false, b1) => (false, b1)
    else (false, bindings)
  | .fn name1 args1, .fn name2 args2, bindings =>
    match pattern_match_impl name1 name2 bindings with
    | (okh, b1) =>
      if okh && (args1.length == args2.length) then
        pattern_match_args args1 args2 b1
      else (false, b1)
  | _, _, bindings => (false, bindings)

/-- The `for i in 0..args1.len()` loop of `pattern_match_impl`, returning
`false` at the first argument that fails to match. It is only reached with
argument vectors of equal length. -/
def pattern_match_args : List Expr → List Expr → Bindings → Bool × Bindings
  | [], _, bindings => (true, bindings)
  | _ :: _, [], bindings => (true, bindings)
  | p :: ps, v :: vs, bindings =>
    match pattern_match_impl p v bindings with
    | (true, b1) => pattern_match_args ps vs b1
    | (false, b1) => (false, b1)

end

/-- Mirrors `pattern_match`: run the matcher on an empty environment and
discard the environment when the match failed. -/
def pattern_match (pattern : Expr) (value : Expr) : Option Bindings :=
  match pattern_match_impl pattern value [] with
  | (true, bindings) => some bindings
  | (false, _) => none

mutual

/-- Mirrors `substitute_bindings`: rebuild the tree, replacing a variable
by its binding when one exists and leaving it unchanged otherwise. -/
def substitute_bindings (bindings : Bindings) : Expr → Expr
  | .sym name => .sym name
  | .var name =>
    match bindings.get name with
    | some value => value
    | none => .var name
  | .op o lhs rhs =>
    .op o (substitute_bindings bindings lhs) (substitute_bindings bindings rhs)
  | .fn head args =>
    .fn (substitute_bindings bindings head) (substitute_bindings_args bindings args)

/-- The argument loop of `substitute_bindings` on a `Fun` node. -/
def substitute_bindings_args (bindings : Bindings) : List Expr → List Expr
  | [] => []
  | a :: as => substitute_bindings bindings a :: substitute_bindings_args bindings as

end

mutual

/-- An expression contains no occurrence of the wildcard variable `_`.
This predicate is stated over the embedded syntax; it is used to delimit
the fragment on which match soundness holds. -/
def wildcard_free : Expr → Bool
  | .sym _ => true
  | .var name => !(name == "_")
  | .op _ lhs rhs => wildcard_free lhs && wildcard_free rhs
  | .fn head args => wildcard_free head && wildcard_free_args args

/-- All expressions of a list are wildcard-free. -/
def wildcard_free_args : List Expr → Bool
  | [] => true
  | a :: as => wildcard_free a && wildcard_free_args as

end

mutual

/-- Mirrors `impl fmt::Display for Expr`. A `Fun` head is printed bare
when it is a `Sym` or a `Var` and wrapped in parentheses otherwise; an
operand of an `Op` is wrapped when it is itself an `Op` of precedence at
most the parent's; a precedence-0 operator is surrounded by spaces. -/
def Expr.display : Expr → String
  | .sym name => name
  | .var name => name
  | .fn head args =>
    (match head with
     | .sym name => name
     | .var name => name
     | other => "(" ++ Expr.display other ++ ")")
    ++ "(" ++ Expr.displayArgs args ++ ")"
  | .op o lhs rhs =>
    (match lhs with
     | .op sub_op _ _ =>
       if sub_op.precedence ≤ o.precedence then "(" ++ Expr.display lhs ++ ")"
       else Expr.display lhs
     | _ => Expr.display lhs)
    ++ (if o.precedence = 0 then " " ++ o.display ++ " " else o.display)
    ++ (match rhs with
        | .op sub_op _ _ =>
          if sub_op.precedence ≤ o.precedence then "(" ++ Expr.display rhs ++ ")"
          else Expr.display rhs
        | _ => Expr.display rhs)

/-- The comma-separated argument list of a `Fun` node. -/
def Expr.displayArgs : List Expr → String
  | [] => ""
  | [a] => Expr.display a
  | a :: as => Expr.display a ++ ", " ++ Expr.displayArgs as

end

/-- Token kinds required by the parser. Modelled from the spec (section
4.1, token interface): the lexer itself lives outside the verified core;
the parser only inspects the `kind` and `text` fields supplied here.
`eos` is the end-of-stream marker the Rust lexer calls `End`. -/
inductive TokenKind where
  | ident
  | openParen
  | closeParen
  | comma
  | equals
  | plus
  | dash
  | asterisk
  | slash
  | caret
  | ruleKw
  | shapeKw
  | applyKw
  | doneKw
  | undoKw
  | quitKw
  | deleteKw
  | reverseKw
  | eos
deriving DecidableEq, Repr

/-- A lexer token: kind, lexeme and source location. -/
structure Token where
  kind : TokenKind
  text : String := ""
  loc : Loc := {}
deriving DecidableEq, Repr

/-- The token the lexer yields once the stream is exhausted. -/
def eosToken : Token := { kind := .eos }

/-- Mirrors `Lexer::peek_token`: one-token lookahead; at end of stream the
lexer keeps yielding the `End` token. -/
def peekT (ts : List Token) : Token :=
  ts.headD eosToken

/-- Mirrors `Lexer::next_token`: consume one token. -/
def nextT (ts : List Token) : Token × List Token :=
  (ts.headD eosToken, ts.tail)

/-- Mirrors `Op::from_token_kind`. -/
def Op.from_token_kind : TokenKind → Option Op
  | .plus => some .add
  | .dash => some .sub
  | .asterisk => some .mul
  | .slash => some .div
  | .caret => some .pow
  | _ => none

/-- Parse errors, from `enum SyntaxError` in src/main.rs. -/
inductive SyntaxError where
  | ExpectedToken : TokenKind → Token → SyntaxError
  | ExpectedPrimary : Token → SyntaxError
  | ExpectedAppliedRule : Token → SyntaxError
  | ExpectedCommand : Token → SyntaxError
deriving DecidableEq, Repr

/-- Mirrors `expect_token_kind`: consume a token and fail unless it has
the requested kind. -/
def expect_token_kind (ts : List Token) (kind : TokenKind) :
    Except SyntaxError (Token × List Token) :=
  let (token, rest) := nextT ts
  if kind = token.kind then .ok (token, rest)
  else .error (.ExpectedToken kind token)

mutual

/-- Mirrors `Expr::parse_binary_operator`. Above the maximal precedence it
falls through to the primary parser; otherwise it parses the next tighter
level and enters the operator loop. The recursion is fuel-indexed because
the call graph is not structural on the token list; `none` means the fuel
ran out (never hit with fuel exceeding the token count). -/
def parse_binary_operator :
    Nat → Nat → List Token → Option (Except SyntaxError (Expr × List Token))
  | 0, _, _ => none
  | fuel + 1, current_precedence, ts =>
    if current_precedence > Op.MAX_PRECEDENCE then
      parse_fun_or_var_or_sym fuel ts
    else
      match parse_binary_operator fuel (current_precedence + 1) ts with
      | none => none
      | some (.error e) => some (.error e)
      | some (.ok (result, ts1)) => parse_bin_loop fuel current_precedence result ts1

/-- The `while let Some(op) = Op::from_token_kind(...)` loop of
`Expr::parse_binary_operator`: while the next token is an operator of the
current precedence, consume it and parse the right operand by a recursive
call at the same precedence. -/
def parse_bin_loop :
    Nat → Nat → Expr → List Token → Option (Except SyntaxError (Expr × List Token))
  | 0, _, _, _ => none
  | fuel + 1, current_precedence, result, ts =>
    match Op.from_token_kind (peekT ts).kind with
    | none => some (.ok (result, ts))
    | some op =>
      if current_precedence ≠ op.precedence then some (.ok (result, ts))
      else
        match parse_binary_operator fuel current_precedence (nextT ts).2 with
        | none => none
        | some (.error e) => some (.error e)
        | some (.ok (rhs, ts2)) =>
          parse_bin_loop fuel current_precedence (.op op result rhs) ts2

/-- Mirrors `Expr::parse_fun_or_var_or_sym`: a parenthesised expression or
an identifier, followed by zero or more argument lists. -/
def parse_fun_or_var_or_sym :
    Nat → List Token → Option (Except SyntaxError (Expr × List Token))
  | 0, _ => none
  | fuel + 1, ts =>
    let token := peekT ts
    match token.kind with
    | .openParen =>
      match parse_binary_operator fuel 0 (nextT ts).2 with
      | none => none
      | some (.error e) => some (.error e)
      | some (.ok (result, ts1)) =>
        match expect_token_kind ts1 .closeParen with
        | .error e => some (.error e)
        | .ok (_, ts2) => parse_fun_tail fuel result ts2
    | .ident => parse_fun_tail fuel (var_or_sym_based_on_name token.text) (nextT ts).2
    | _ => some (.error (.ExpectedPrimary token))

/-- The `while lexer.peek_token().kind == OpenParen` loop of
`Expr::parse_fun_or_var_or_sym`: chain argument lists into nested `Fun`
applications. -/
def parse_fun_tail :
    Nat → Expr → List Token → Option (Except SyntaxError (Expr × List Token))
  | 0, _, _ => none
  | fuel + 1, head, ts =>
    if (peekT ts).kind = .openParen then
      match parse_fun_args fuel ts with
      | none => none
      | some (.error e) => some (.error e)
      | some (.ok (args, ts1)) => parse_fun_tail fuel (.fn head args) ts1
    else some (.ok (head, ts))

/-- Mirrors `Expr::parse_fun_args`: `(`, an optional comma-separated list
of expressions, `)`. -/
def parse_fun_args :
    Nat → List Token → Option (Except SyntaxError (List Expr × List Token))
  | 0, _ => none
  | fuel + 1, ts =>
    match expect_token_kind ts .openParen with
    | .error e => some (.error e)
    | .ok (_, ts1) =>
      if (peekT ts1).kind = .closeParen then some (.ok ([], (nextT ts1).2))
      else
        match parse_binary_operator fuel 0 ts1 with
        | none => none
        | some (.error e) => some (.error e)
        | some (.ok (arg, ts2)) => parse_fun_args_loop fuel [arg] ts2

/-- The `while lexer.peek_token().kind == Comma` loop of
`Expr::parse_fun_args`, followed by the closing-parenthesis check. -/
def parse_fun_args_loop :
    Nat → List Expr → List Token → Option (Except SyntaxError (List Expr × List Token))
  | 0, _, _ => none
  | fuel + 1, args, ts =>
    if (peekT ts).kind = .comma then
      match parse_binary_operator fuel 0 (nextT ts).2 with
      | none => none
      | some (.error e) => some (.error e)
      | some (.ok (arg, ts1)) => parse_fun_args_loop fuel (args ++ [arg]) ts1
    else
      let (close_paren, ts1) := nextT ts
      if close_paren.kind = .closeParen then some (.ok (args, ts1))
      else some (.error (.ExpectedToken .closeParen close_paren))

end

/-- Mirrors `Expr::parse`: parsing an expression starts at precedence 0. -/
def Expr.parse (fuel : Nat) (ts : List Token) :
    Option (Except SyntaxError (Expr × List Token)) :=
  parse_binary_operator fuel 0 ts

/-- Mirrors `enum Action`: whether to rewrite the current match site. -/
inductive Action where
  | skip
  | apply
deriving DecidableEq, Repr

/-- Mirrors `enum State`: how the traversal continues after a match. -/
inductive State where
  | bail
  | cont
  | halt
deriving DecidableEq, Repr

/-- Mirrors `struct Resolution`. -/
structure Resolution where
  action : Action
  state : State
deriving DecidableEq, Repr

/-- Runtime errors, from `enum RuntimeError` in src/main.rs. -/
inductive RuntimeError where
  | RuleAlreadyExists : String → Loc → Option Loc → RuntimeError
  | RuleDoesNotExist : String → Loc → RuntimeError
  | AlreadyShaping : Loc → RuntimeError
  | NoShapingInPlace : Loc → RuntimeError
  | NoHistory : Loc → RuntimeError
  | UnknownStrategy : String → Loc → RuntimeError
  | IrreversibleRule : Loc → RuntimeError
  | StrategyIsNotSym : Expr → Loc → RuntimeError
deriving DecidableEq

/-- Mirrors `enum Rule`: a user rule `head = body` or the built-in
`Replace` meta-rule. -/
inductive Rule where
  | user : Loc → Expr → Expr → Rule
  | replace : Rule
deriving DecidableEq

/-- Mirrors `enum Strategy`; the `Nth` variant carries its mutable
counter. -/
inductive Strategy where
  | all
  | deep
  | nth : Nat → Nat → Strategy
deriving DecidableEq, Repr

/-- Model of `usize::from_str` as the strategy parser uses it: a
non-empty all-digit string denotes the number it spells, anything else is
rejected. (Rust additionally accepts one leading `+` and rejects numbers
above `usize::MAX`; an identifier lexeme can contain no `+`, and the
overflow bound is irrelevant to the properties proved here.) -/
def parse_usize (s : String) : Option Nat :=
  match s.data with
  | [] => none
  | ds =>
    if ds.all (fun c => c.isDigit) then
      some (ds.foldl (fun acc c => acc * 10 + (c.toNat - 48)) 0)
    else none

/-- Mirrors `Strategy::by_name`: the named strategies, then the numeric
form `Strategy::nth(target)` with the counter starting at 0. -/
def Strategy.by_name : String → Option Strategy
  | "all" => some .all
  | "first" => some (.nth 0 0)
  | "deep" => some .deep
  | x => (parse_usize x).map (fun target => .nth 0 target)

/-- Mirrors `Strategy::matched`. The `&mut self` mutation of the `Nth`
counter becomes returning the successor strategy alongside the
resolution. -/
def Strategy.matched : Strategy → Resolution × Strategy
  | .all => ({ action := .apply, state := .bail }, .all)
  | .deep => ({ action := .apply, state := .cont }, .deep)
  | .nth current target =>
    if current = target then ({ action := .apply, state := .halt }, .nth current target)
    else if current > target then ({ action := .skip, state := .halt }, .nth current target)
    else ({ action := .skip, state := .cont }, .nth (current + 1) target)

/-- The fixed meta pattern `apply_rule(Strategy, Head, Body, Expr)` built
by the `expr!` macro inside the `Rule::Replace` arm. -/
def meta_pattern : Expr :=
  .fn (.sym "apply_rule") [.var "Strategy", .var "Head", .var "Body", .var "Expr"]

mutual

/-- Mirrors the inner `apply_impl` of `Rule::apply`. Try the rule at the
current node; on a match consult the strategy, otherwise recurse into the
subexpressions. The `Replace` arm rebuilds a user rule from the bindings
of the meta pattern and runs it on the bound expression. The `.getD`
defaults model the `expect` calls, which cannot fire because a successful
match against `meta_pattern` binds all four variables. Fuel models the
possible divergence of the recursion through a substituted body. -/
def apply_impl (fuel : Nat) (rule : Rule) (expr : Expr) (strategy : Strategy)
    (apply_command_loc : Loc) :
    Option (Except RuntimeError (Expr × Bool × Strategy)) :=
  match fuel with
  | 0 => none
  | fuel + 1 =>
    match rule with
    | .user _ head body =>
      match pattern_match head expr with
      | some bindings =>
        let (resolution, strategy1) := strategy.matched
        let new_expr :=
          match resolution.action with
          | .apply => substitute_bindings bindings body
          | .skip => expr
        match resolution.state with
        | .bail => some (.ok (new_expr, false, strategy1))
        | .cont => apply_to_subexprs fuel rule new_expr strategy1 apply_command_loc
        | .halt => some (.ok (new_expr, true, strategy1))
      | none => apply_to_subexprs fuel rule expr strategy apply_command_loc
    | .replace =>
      match pattern_match meta_pattern expr with
      | some bindings =>
        let meta_rule : Rule :=
          .user loc_here ((bindings.get "Head").getD (.sym ""))
            ((bindings.get "Body").getD (.sym ""))
        let meta_strategy := (bindings.get "Strategy").getD (.sym "")
        match meta_strategy with
        | .sym meta_strategy_name =>
          let meta_expr := (bindings.get "Expr").getD (.sym "")
          match Strategy.by_name meta_strategy_name with
          | some s =>
            match apply_impl fuel meta_rule meta_expr s apply_command_loc with
            | none => none
            | some (.error e) => some (.error e)
            | some (.ok (result, _, _)) => some (.ok (result, false, strategy))
          | none =>
            some (.error (.UnknownStrategy meta_strategy_name apply_command_loc))
        | other => some (.error (.StrategyIsNotSym other apply_command_loc))
      | none => apply_to_subexprs fuel rule expr strategy apply_command_loc

/-- Mirrors the inner `apply_to_subexprs` of `Rule::apply`: leaves are
returned unchanged; on an `Op` a halt from the left child short-circuits
the right child and propagates; on a `Fun` a halt from the head
short-circuits the arguments and propagates, while a halt from an
argument leaves the remaining arguments unchanged and the whole node
reports halt = false. -/
def apply_to_subexprs (fuel : Nat) (rule : Rule) (expr : Expr) (strategy : Strategy)
    (apply_command_loc : Loc) :
    Option (Except RuntimeError (Expr × Bool × Strategy)) :=
  match fuel with
  | 0 => none
  | fuel + 1 =>
    match expr with
    | .sym name => some (.ok (.sym name, false, strategy))
    | .var name => some (.ok (.var name, false, strategy))
    | .op o lhs rhs =>
      match apply_impl fuel rule lhs strategy apply_command_loc with
      | none => none
      | some (.error e) => some (.error e)
      | some (.ok (new_lhs, halt, s1)) =>
        if halt then some (.ok (.op o new_lhs rhs, true, s1))
        else
          match apply_impl fuel rule rhs s1 apply_command_loc with
          | none => none
          | some (.error e) => some (.error e)
          | some (.ok (new_rhs, halt2, s2)) =>
            some (.ok (.op o new_lhs new_rhs, halt2, s2))
    | .fn head args =>
      match apply_impl fuel rule head strategy apply_command_loc with
      | none => none
      | some (.error e) => some (.error e)
      | some (.ok (new_head, halt, s1)) =>
        if halt then some (.ok (.fn new_head args, true, s1))
        else
          match apply_args fuel rule args s1 apply_command_loc with
          | none => none
          | some (.error e) => some (.error e)
          | some (.ok (new_args, s2)) => some (.ok (.fn new_head new_args, false, s2))

/-- The `for arg in args` loop of `apply_to_subexprs` with its `halt_args`
flag: after the first argument whose recursion halts, the remaining
arguments are pushed unchanged. -/
def apply_args (fuel : Nat) (rule : Rule) (args : List Expr) (strategy : Strategy)
    (apply_command_loc : Loc) :
    Option (Except RuntimeError (List Expr × Strategy)) :=
  match fuel with
  | 0 => none
  | fuel + 1 =>
    match args with
    | [] => some (.ok ([], strategy))
    | arg :: rest =>
      match apply_impl fuel rule arg strategy apply_command_loc with
      | none => none
      | some (.error e) => some (.error e)
      | some (.ok (new_arg, halt, s1)) =>
        if halt then some (.ok (new_arg :: rest, s1))
        else
          match apply_args fuel rule rest s1 apply_command_loc with
          | none => none
          | some (.error e) => some (.error e)
          | some (.ok (new_rest, s2)) => some (.ok (new_arg :: new_rest, s2))

end

/-- Mirrors the public `Rule::apply`: run `apply_impl` and keep only the
rewritten expression, dropping the halt flag and the strategy state. The
meta-rule arm of `apply_impl` invokes this same combination inline. -/
def Rule.apply (fuel : Nat) (rule : Rule) (expr : Expr) (strategy : Strategy)
    (apply_command_loc : Loc) : Option (Except RuntimeError Expr) :=
  match apply_impl fuel rule expr strategy apply_command_loc with
  | none => none
  | some (.error e) => some (.error e)
  | some (.ok (result, _, _)) => some (.ok result)

/-- Mirrors `enum AppliedRule`: the rule argument of an `apply` command,
either a reference by name (with a deferred `reversed` flag) or an
anonymous `rule head = body`. -/
inductive AppliedRule where
  | byName : Loc → String → Bool → AppliedRule
  | anonymous : Loc → Expr → Expr → AppliedRule
deriving DecidableEq

/-- Mirrors `AppliedRule::reversed`: flip the deferred flag of a by-name
reference, swap head and body of an anonymous rule. -/
def AppliedRule.reversed : AppliedRule → AppliedRule
  | .byName loc name reversed => .byName loc name (!reversed)
  | .anonymous loc head body => .anonymous loc body head

/-- Mirrors `enum Command` in src/main.rs. -/
inductive Command where
  | defineRule : Loc → String → Rule → Command
  | startShaping : Loc → Expr → Command
  | applyRule : Loc → String → AppliedRule → Command
  | finishShaping : Loc → Command
  | undoRule : Loc → Command
  | quit : Command
  | deleteRule : Loc → String → Command
deriving DecidableEq

/-- Mirrors `struct Context`: the session state. The rule table
`HashMap<String, Rule>` is modelled as an association list; the code
inserts only after a `contains`/`get` check failed and removes only after
one succeeded, so keys are unique and lookup, insertion and removal have
exactly the `HashMap` behavior. The `Vec` history pushes and pops at the
rightmost end. -/
structure Context where
  rules : List (String × Rule)
  current_expr : Option Expr
  shaping_history : List Expr
  quit : Bool
deriving DecidableEq

/-- Mirrors `Context::new`: a fresh session knows only the built-in
`replace` rule. -/
def Context.new : Context :=
  { rules := [("replace", Rule.replace)]
    current_expr := none
    shaping_history := []
    quit := false }

/-- Mirrors `Context::materialize_applied_rule`: resolve a by-name
reference in the rule table (reversing swaps head and body of a user
rule and is an error on `Replace`); an anonymous rule is taken as is. -/
def Context.materialize_applied_rule (c : Context) :
    AppliedRule → Except RuntimeError Rule
  | .byName loc name reversed =>
    match c.rules.lookup name with
    | some rule =>
      if reversed then
        match rule with
        | .user l head body => .ok (.user l body head)
        | .replace => .error (.IrreversibleRule loc)
      else .ok rule
    | none => .error (.RuleDoesNotExist name loc)
  | .anonymous loc head body => .ok (.user loc head body)

/-- Mirrors `Context::process_command`. The `&mut self` session becomes
explicit state passing: the function returns the command's result
together with the session state at the moment the Rust function returns,
so an early error return hands back the state exactly as the mutations
performed so far left it. Printing to stdout is dropped. -/
def Context.process_command (fuel : Nat) (c : Context) :
    Command → Option (Except RuntimeError Unit × Context)
  | .defineRule rule_loc rule_name rule =>
    match c.rules.lookup rule_name with
    | some existing_rule =>
      let old_loc :=
        match existing_rule with
        | .user l _ _ => some l
        | .replace => none
      some (.error (.RuleAlreadyExists rule_name rule_loc old_loc), c)
    | none => some (.ok (), { c with rules := (rule_name, rule) :: c.rules })
  | .startShaping loc expr =>
    match c.current_expr with
    | some _ => some (.error (.AlreadyShaping loc), c)
    | none => some (.ok (), { c with current_expr := some expr })
  | .applyRule loc strategy_name applied_rule =>
    match c.current_expr with
    | some expr =>
      match c.materialize_applied_rule applied_rule with
      | .error e => some (.error e, c)
      | .ok rule =>
        match Strategy.by_name strategy_name with
        | none => some (.error (.UnknownStrategy strategy_name loc), c)
        | some strategy =>
          match Rule.apply fuel rule expr strategy loc with
          | none => none
          | some (.error e) => some (.error e, c)
          | some (.ok new_expr) =>
            some (.ok (),
              { c with
                shaping_history := c.shaping_history ++ [expr]
                current_expr := some new_expr })
    | none => some (.error (.NoShapingInPlace loc), c)
  | .finishShaping loc =>
    match c.current_expr with
    | some _ => some (.ok (), { c with current_expr := none, shaping_history := [] })
    | none => some (.error (.NoShapingInPlace loc), c)
  | .undoRule loc =>
    match c.current_expr with
    | some _ =>
      match c.shaping_history.getLast? with
      | some previous_expr =>
        some (.ok (),
          { c with
            current_expr := some previous_expr
            shaping_history := c.shaping_history.dropLast })
      | none => some (.error (.NoHistory loc), c)
    | none => some (.error (.NoShapingInPlace loc), c)
  | .quit => some (.ok (), { c with quit := true })
  | .deleteRule loc name =>
    match c.rules.lookup name with
    | some _ =>
      some (.ok (), { c with rules := c.rules.eraseP (fun p => p.1 == name) })
    | none => some (.error (.RuleDoesNotExist name loc), c)

/-- Run a command sequence, stopping (with `none`) at the first command
that errors or runs out of fuel; used to state the concrete scenarios of
the spec, in which every command succeeds. -/
def run_ok (fuel : Nat) : Context → List Command → Option Context
  | c, [] => some c
  | c, cmd :: rest =>
    match Context.process_command fuel c cmd with
    | some (.ok _, c1) => run_ok fuel c1 rest
    | _ => none


/-- The session states reachable from `Context::new` by processing
commands (successfully or not) with any amount of fuel. -/
inductive Reachable : Context → Prop where
  | init : Reachable Context.new
  | step {c : Context} {fuel : Nat} {cmd : Command} {r : Except RuntimeError Unit}
      {c2 : Context} : Reachable c →
      Context.process_command fuel c cmd = some (r, c2) → Reachable c2

/-- An identifier token for scenario inputs. -/
def ident_token (s : String) : Token :=
  { kind := .ident, text := s }

/-- The operator token whose kind maps back to the given operator under
`Op::from_token_kind`. -/
def op_token (o : Op) : Token :=
  { kind :=
      match o with
      | .add => .plus
      | .sub => .dash
      | .mul => .asterisk
      | .div => .slash
      | .pow => .caret }

/-- The rule `dup X = pair(X, X)` of scenario S2. -/
def dup_rule : Rule :=
  .user {} (.var "X") (.fn (.sym "pair") [.var "X", .var "X"])

/-- The expression `f(a, b, c)` of scenario S2. -/
def s2_shape : Expr := .fn (.sym "f") [.sym "a", .sym "b", .sym "c"]

/-- The command sequence of scenario S2: `rule dup X = pair(X, X)`,
`shape f(a, b, c)`, `apply 1 dup`. -/
def s2_commands : List Command :=
  [ .defineRule {} "dup" dup_rule,
    .startShaping {} s2_shape,
    .applyRule {} "1" (.byName {} "dup" false) ]

/-- The rule `comm A + B = B + A` of scenario S5. -/
def comm_rule : Rule :=
  .user {} (.op .add (.var "A") (.var "B")) (.op .add (.var "B") (.var "A"))

/-- The expression `apply_rule(all, A + B, B + A, x + y)` of scenario
S5. -/
def s5_shape : Expr :=
  .fn (.sym "apply_rule")
    [ .sym "all",
      .op .add (.var "A") (.var "B"),
      .op .add (.var "B") (.var "A"),
      .op .add (.sym "x") (.sym "y") ]

/-- The command sequence of scenario S5: `rule comm A + B = B + A`,
`shape apply_rule(all, A + B, B + A, x + y)`, `apply all replace`. -/
def s5_commands : List Command :=
  [ .defineRule {} "comm" comm_rule,
    .startShaping {} s5_shape,
    .applyRule {} "all" (.byName {} "replace" false) ]

/-- Session state after `shape a` in a fresh session. -/
def shape_a_ctx : Context :=
  { rules := [("replace", Rule.replace)]
    current_expr := some (.sym "a")
    shaping_history := []
    quit := false }

/-- Session state after `shape a` and then `apply all rule X = X` in a
fresh session. -/
def shape_a_applied_ctx : Context :=
  { rules := [("replace", Rule.replace)]
    current_expr := some (.sym "a")
    shaping_history := [.sym "a"]
    quit := false }

/-- One binding environment extends another when it preserves every
binding of the other. -/
def Bindings.Extends (b2 b1 : Bindings) : Prop :=
  ∀ n v, b1.get n = some v → b2.get n = some v

theorem Bindings.Extends.refl (b : Bindings) : b.Extends b := fun _ _ h => h

theorem Bindings.Extends.trans {b3 b2 b1 : Bindings} (h32 : b3.Extends b2)
    (h21 : b2.Extends b1) : b3.Extends b1 := fun n v h => h32 n v (h21 n v h)

theorem Bindings.get_insert_self (b : Bindings) (n : String) (v : Expr) :
    (b.insert n v).get n = some v := by
  simp [Bindings.insert, Bindings.get, List.lookup]

theorem Bindings.insert_extends (b : Bindings) (n : String) (v : Expr)
    (hn : b.get n = none) : (b.insert n v).Extends b := by
  intro m w h
  simp only [Bindings.insert, Bindings.get, List.lookup] at *
  by_cases hc : m = n
  · subst hc; rw [h] at hn; cases hn
  · have hb : (m == n) = false := by simp [hc]
    simp [hb, h]

mutual

theorem pattern_match_impl_extends : ∀ (p v : Expr) (b : Bindings),
    (pattern_match_impl p v b).2.Extends b
  | .sym n1, v, b => by
    cases v <;> simp [pattern_match_impl] <;> exact Bindings.Extends.refl b
  | .var n, v, b => by
    simp only [pattern_match_impl]
    by_cases hw : (n == "_") = true
    · simp [hw]; exact Bindings.Extends.refl b
    · simp only [hw, if_neg, Bool.not_eq_true]
      cases hg : b.get n with
      | some bound => simp [hw, hg]; exact Bindings.Extends.refl b
      | none => simp [hw, hg]; exact Bindings.insert_extends b n v hg
  | .op o1 l1 r1, v, b => by
    cases v with
    | op o2 l2 r2 =>
      simp only [pattern_match_impl]
      by_cases ho : (o1 == o2) = true
      · simp only [ho, if_true]
        cases h1 : pattern_match_impl l1 l2 b with
        | mk ok1 b1 =>
          cases ok1 with
          | true =>
            have e1 := pattern_match_impl_extends l1 l2 b
            rw [h1] at e1
            exact (pattern_match_impl_extends r1 r2 b1).trans e1
          | false =>
            have e1 := pattern_match_impl_extends l1 l2 b
            rw [h1] at e1
            exact e1
      · simp [ho]; exact Bindings.Extends.refl b
    | sym n2 => simp [pattern_match_impl]; exact Bindings.Extends.refl b
    | var n2 => simp [pattern_match_impl]; exact Bindings.Extends.refl b
    | fn h2 a2 => simp [pattern_match_impl]; exact Bindings.Extends.refl b
  | .fn h1 a1, v, b => by
    cases v with
    | fn h2 a2 =>
      simp only [pattern_match_impl]
      cases hh : pattern_match_impl h1 h2 b with
      | mk okh b1 =>
        have eh := pattern_match_impl_extends h1 h2 b
        rw [hh] at eh
        by_cases hc : (okh && (a1.length == a2.length)) = true
        · simp only [hc, if_true]
          exact (pattern_match_args_extends a1 a2 b1).trans eh
        · simp only [hc, if_neg, Bool.not_eq_true]
          exact eh
    | sym n2 => simp [pattern_match_impl]; exact Bindings.Extends.refl b
    | var n2 => simp [pattern_match_impl]; exact Bindings.Extends.refl b
    | op o2 l2 r2 => simp [pattern_match_impl]; exact Bindings.Extends.refl b

theorem pattern_match_args_extends : ∀ (ps vs : List Expr) (b : Bindings),
    (pattern_match_args ps vs b).2.Extends b
  | [], _, b => by simp [pattern_match_args]; exact Bindings.Extends.refl b
  | _ :: _, [], b => by simp [pattern_match_args]; exact Bindings.Extends.refl b
  | p :: ps, v :: vs, b => by
    simp only [pattern_match_args]
    cases h1 : pattern_match_impl p v b with
    | mk ok1 b1 =>
      have e1 := pattern_match_impl_extends p v b
      rw [h1] at e1
      cases ok1 with
      | true => exact (pattern_match_args_extends ps vs b1).trans e1
      | false => exact e1

end



mutual

theorem pattern_match_impl_sound : ∀ (p v : Expr) (b b2 bF : Bindings),
    wildcard_free p = true → pattern_match_impl p v b = (true, b2) →
    bF.Extends b2 → substitute_bindings bF p = v
  | .sym n1, v, b, b2, bF => by
    intro _ hm hext
    cases v <;> simp [pattern_match_impl] at hm
    simp [substitute_bindings, hm.1]
  | .var n, v, b, b2, bF => by
    intro wf hm hext
    cases hne : n == "_" with
    | true => simp [wildcard_free, hne] at wf
    | false =>
    simp only [pattern_match_impl, hne, Bool.false_eq_true, if_false] at hm
    split at hm
    case _ bound hg =>
      simp only [Prod.mk.injEq] at hm
      have hget : bF.get n = some bound := hext n bound (hm.2 ▸ hg)
      simp only [substitute_bindings, hget]
      exact eq_of_beq hm.1
    case _ hg =>
      simp only [Prod.mk.injEq, true_and] at hm
      have hget : bF.get n = some v :=
        hext n v (hm ▸ Bindings.get_insert_self b n v)
      simp [substitute_bindings, hget]
  | .op o1 l1 r1, v, b, b2, bF => by
    intro wf hm hext
    cases v with
    | op o2 l2 r2 =>
      simp only [wildcard_free, Bool.and_eq_true] at wf
      simp only [pattern_match_impl] at hm
      by_cases ho : (o1 == o2) = true
      · rw [ho] at hm
        simp only [if_true] at hm
        split at hm
        case _ b1 heq =>
          have e2 : b2.Extends b1 := by
            have hmono := pattern_match_impl_extends r1 r2 b1
            rw [hm] at hmono
            exact hmono
          have ihl := pattern_match_impl_sound l1 l2 b b1 bF wf.1 heq
            (hext.trans e2)
          have ihr := pattern_match_impl_sound r1 r2 b1 b2 bF wf.2 hm hext
          simp [substitute_bindings, ihl, ihr, eq_of_beq ho]
        case _ => simp at hm
      · simp only [Bool.not_eq_true] at ho
        rw [ho] at hm
        simp at hm
    | sym n2 => simp [pattern_match_impl] at hm
    | var n2 => simp [pattern_match_impl] at hm
    | fn h2 a2 => simp [pattern_match_impl] at hm
  | .fn h1 a1, v, b, b2, bF => by
    intro wf hm hext
    cases v with
    | fn h2 a2 =>
      simp only [wildcard_free, Bool.and_eq_true] at wf
      simp only [pattern_match_impl] at hm
      split at hm
      next hcond =>
        simp only [Bool.and_eq_true, beq_iff_eq] at hcond
        have e2 : b2.Extends (pattern_match_impl h1 h2 b).2 := by
          have hmono := pattern_match_args_extends a1 a2 (pattern_match_impl h1 h2 b).2
          rw [hm] at hmono
          exact hmono
        have hh2 : pattern_match_impl h1 h2 b =
            (true, (pattern_match_impl h1 h2 b).2) := by
          rw [← hcond.1]
        have ihh := pattern_match_impl_sound h1 h2 b (pattern_match_impl h1 h2 b).2
          bF wf.1 hh2 (hext.trans e2)
        have iha := pattern_match_args_sound a1 a2 (pattern_match_impl h1 h2 b).2
          b2 bF wf.2 hcond.2 hm hext
        simp [substitute_bindings, ihh, iha]
      next => simp at hm
    | sym n2 => simp [pattern_match_impl] at hm
    | var n2 => simp [pattern_match_impl] at hm
    | op o2 l2 r2 => simp [pattern_match_impl] at hm

theorem pattern_match_args_sound : ∀ (ps vs : List Expr) (b b2 bF : Bindings),
    wildcard_free_args ps = true → ps.length = vs.length →
    pattern_match_args ps vs b = (true, b2) →
    bF.Extends b2 → substitute_bindings_args bF ps = vs
  | [], [], b, b2, bF => by
    intro _ _ _ _
    simp [substitute_bindings_args]
  | [], _ :: _, b, b2, bF => by
    intro _ hl _ _
    simp at hl
  | _ :: _, [], b, b2, bF => by
    intro _ hl _ _
    simp at hl
  | p :: ps, v :: vs, b, b2, bF => by
    intro wf hl hm hext
    simp only [wildcard_free_args, Bool.and_eq_true] at wf
    simp only [List.length_cons, Nat.succ_inj] at hl
    simp only [pattern_match_args] at hm
    split at hm
    case _ b1 heq =>
      have e2 : b2.Extends b1 := by
        have hmono := pattern_match_args_extends ps vs b1
        rw [hm] at hmono
        exact hmono
      have ih1 := pattern_match_impl_sound p v b b1 bF wf.1 heq (hext.trans e2)
      have ihs := pattern_match_args_sound ps vs b1 b2 bF wf.2 hl hm hext
      simp [substitute_bindings_args, ih1, ihs]
    case _ => simp at hm

end


/-- Claim C1, counterexample: on the token stream `a + b + c` the parser
produces the right-nested tree `Op(+, a, Op(+, b, c))`, which differs
from the left-nested tree `Op(+, Op(+, a, b), c)` the claim requires. -/
theorem C1_left_assoc_counterexample :
    Expr.parse 32 [ident_token "a", op_token .add, ident_token "b",
        op_token .add, ident_token "c"] =
      some (.ok (.op .add (.sym "a") (.op .add (.sym "b") (.sym "c")), [])) ∧
    Expr.op .add (.sym "a") (.op .add (.sym "b") (.sym "c")) ≠
      Expr.op .add (.op .add (.sym "a") (.sym "b")) (.sym "c") :=
  ⟨rfl, by decide⟩

/-- Claim C1, amended: for every pair of operators of the same precedence
level, the expression parser parses `a OP b OP c` right-associatively:
the result is `Op(OP1, a, Op(OP2, b, c))`, because
`Expr::parse_binary_operator` parses the right operand by a recursive
call at the same precedence level. -/
theorem C1_parse_right_assoc (o1 o2 : Op) (a b c : String)
    (h : o1.precedence = o2.precedence) :
    Expr.parse 32 [ident_token a, op_token o1, ident_token b, op_token o2,
        ident_token c] =
      some (.ok (.op o1 (var_or_sym_based_on_name a)
        (.op o2 (var_or_sym_based_on_name b) (var_or_sym_based_on_name c)), [])) := by
  revert h
  cases o1 <;> cases o2 <;> intro h <;> first
    | rfl
    | simp [Op.precedence] at h

/-- Witness for C1: instantiating the right-associativity theorem on the
stream `a * b / c`. -/
theorem C1_parse_right_assoc_witness :
    Op.mul.precedence = Op.div.precedence ∧
    Expr.parse 32 [ident_token "a", op_token .mul, ident_token "b",
        op_token .div, ident_token "c"] =
      some (.ok (.op .mul (var_or_sym_based_on_name "a")
        (.op .div (var_or_sym_based_on_name "b")
          (var_or_sym_based_on_name "c")), [])) :=
  ⟨rfl, C1_parse_right_assoc .mul .div "a" "b" "c" rfl⟩

/-- The current expression scenario S2 actually reaches. -/
def s2_result : Expr :=
  .fn (.fn (.sym "pair") [.sym "f", .sym "f"]) [.sym "a", .sym "b", .sym "c"]

/-- Claim C2, counterexample: running scenario S2 (`rule dup X =
pair(X, X); shape f(a, b, c); apply 1 dup`) leaves the session's current
expression at `pair(f, f)(a, b, c)`, not at the `f(a, pair(b, b), c)` the
claim expects: the 0-based match sites of the pattern `X` are the root
(0), the functor head `f` (1), then the arguments, so site 1 is the
head. -/
theorem C2_numeric_strategy_counterexample :
    (run_ok 16 Context.new s2_commands).map Context.current_expr =
      some (some s2_result) ∧
    s2_result ≠
      Expr.fn (.sym "f") [.sym "a", .fn (.sym "pair") [.sym "b", .sym "b"], .sym "c"] :=
  ⟨rfl, by decide⟩

/-- Claim C2, amended: under the numeric strategy 1 the rule `dup` is
applied exactly at match site 1 of the traversal — which is the functor
head `f`, since the traversal counts the root first and then the head —
after which the rewrite halts (the halt flag of `apply_impl` is true and
the counter stopped at 1); the session's current expression becomes
`pair(f, f)(a, b, c)`. -/
theorem C2_numeric_strategy :
    (run_ok 16 Context.new s2_commands).map Context.current_expr =
      some (some s2_result) ∧
    apply_impl 16 dup_rule s2_shape (.nth 0 1) {} =
      some (.ok (s2_result, true, .nth 1 1)) :=
  ⟨rfl, rfl⟩

/-- Claim C3, counterexample: matching the wildcard pattern `_` against
the symbol `a` succeeds with the empty environment, but substituting the
empty environment into `_` returns `_`, which is not `a`. -/
theorem C3_wildcard_counterexample :
    pattern_match (.var "_") (.sym "a") = some [] ∧
    substitute_bindings [] (.var "_") = .var "_" ∧
    Expr.var "_" ≠ Expr.sym "a" :=
  ⟨rfl, rfl, by decide⟩

/-- Claim C3, amended: match soundness holds for every pattern that does
not contain the wildcard variable `_`: if matching P against V succeeds
with environment σ, then substituting σ into P yields exactly V. (The
wildcard matches without recording a binding, so patterns containing it
are excluded.) -/
theorem C3_match_soundness_no_wildcard (p v : Expr) (σ : Bindings)
    (wf : wildcard_free p = true) (hm : pattern_match p v = some σ) :
    substitute_bindings σ p = v := by
  simp only [pattern_match] at hm
  split at hm
  case _ bindings heq =>
    injection hm with hm
    subst hm
    exact pattern_match_impl_sound p v [] _ _ wf heq (Bindings.Extends.refl _)
  case _ => cases hm

/-- Witness for C3: the wildcard-free pattern `X` matched against
`f(a)`. -/
theorem C3_match_soundness_witness :
    wildcard_free (.var "X") = true ∧
    pattern_match (.var "X") (.fn (.sym "f") [.sym "a"]) =
      some [("X", .fn (.sym "f") [.sym "a"])] ∧
    substitute_bindings [("X", .fn (.sym "f") [.sym "a"])] (.var "X") =
      .fn (.sym "f") [.sym "a"] :=
  ⟨rfl, rfl,
    C3_match_soundness_no_wildcard (.var "X") (.fn (.sym "f") [.sym "a"])
      [("X", .fn (.sym "f") [.sym "a"])] rfl rfl⟩

/-- Claim C4, counterexample: the `Fun` expression `f(a)(b)`, whose head
is itself a `Fun`, is printed as `(f(a))(b)` — the head is wrapped in
parentheses even though it is not an `Op`, contradicting the claim that
wrapping happens exactly for `Op` heads. -/
theorem C4_fun_head_counterexample :
    Expr.display (.fn (.fn (.sym "f") [.sym "a"]) [.sym "b"]) = "(f(a))(b)" ∧
    "(f(a))(b)" ≠ "f(a)(b)" :=
  ⟨rfl, by decide⟩

/-- Claim C4, amended: pretty-printing a `Fun` node wraps the printed
head in parentheses exactly when the head is neither a `Sym` nor a `Var`,
i.e. when it is an `Op` or itself a `Fun`; in particular `f(a)(b)` prints
with its head parenthesised. -/
theorem C4_fun_head_parenthesization :
    (∀ n args, Expr.display (.fn (.sym n) args) =
      n ++ "(" ++ Expr.displayArgs args ++ ")") ∧
    (∀ n args, Expr.display (.fn (.var n) args) =
      n ++ "(" ++ Expr.displayArgs args ++ ")") ∧
    (∀ o l r args, Expr.display (.fn (.op o l r) args) =
      "(" ++ Expr.display (.op o l r) ++ ")" ++ "(" ++ Expr.displayArgs args ++ ")") ∧
    (∀ hh hargs args, Expr.display (.fn (.fn hh hargs) args) =
      "(" ++ Expr.display (.fn hh hargs) ++ ")" ++ "(" ++ Expr.displayArgs args ++ ")") :=
  ⟨fun _ _ => rfl, fun _ _ => rfl, fun _ _ _ _ => rfl, fun _ _ _ => rfl⟩

/-- Claim C6: scenario S5 — after `rule comm A + B = B + A`,
`shape apply_rule(all, A + B, B + A, x + y)` and `apply all replace`, the
session's current expression is `y + x`, and the `Replace` meta-rule
application replaces the `apply_rule(...)` node in place, returning halt
flag false and leaving the outer strategy untouched. -/
theorem C6_meta_rule :
    (run_ok 16 Context.new s5_commands).map Context.current_expr =
      some (some (.op .add (.sym "y") (.sym "x"))) ∧
    apply_impl 16 .replace s5_shape .all {} =
      some (.ok (.op .add (.sym "y") (.sym "x"), false, .all)) :=
  ⟨rfl, rfl⟩



/-- Claim C5: the halt asymmetry between `Op` and `Fun` during a rewrite.
For an `Op` node a halt from the left child is propagated: the node is
rebuilt with the right child unchanged and halt = true. Inside a `Fun`
argument list, a halt from an argument leaves all remaining arguments
unchanged, and the `Fun` node as a whole (when its head did not halt)
reports halt = false. -/
theorem C5_fun_halt_asymmetry :
    (∀ (fuel : Nat) (rule : Rule) (strat : Strategy) (o : Op) (l r : Expr)
        (loc : Loc) (l2 : Expr) (s2 : Strategy),
      apply_impl fuel rule l strat loc = some (.ok (l2, true, s2)) →
      apply_to_subexprs (fuel + 1) rule (.op o l r) strat loc =
        some (.ok (.op o l2 r, true, s2))) ∧
    (∀ (fuel : Nat) (rule : Rule) (strat : Strategy) (a : Expr) (rest : List Expr)
        (loc : Loc) (a2 : Expr) (s2 : Strategy),
      apply_impl fuel rule a strat loc = some (.ok (a2, true, s2)) →
      apply_args (fuel + 1) rule (a :: rest) strat loc =
        some (.ok (a2 :: rest, s2))) ∧
    (∀ (fuel : Nat) (rule : Rule) (strat : Strategy) (hd : Expr) (args : List Expr)
        (loc : Loc) (hd2 : Expr) (s1 : Strategy) (args2 : List Expr) (s2 : Strategy),
      apply_impl fuel rule hd strat loc = some (.ok (hd2, false, s1)) →
      apply_args fuel rule args s1 loc = some (.ok (args2, s2)) →
      apply_to_subexprs (fuel + 1) rule (.fn hd args) strat loc =
        some (.ok (.fn hd2 args2, false, s2))) := by
  refine ⟨?_, ?_, ?_⟩
  · intro fuel rule strat o l r loc l2 s2 h
    simp [apply_to_subexprs, h]
  · intro fuel rule strat a rest loc a2 s2 h
    simp [apply_args, h]
  · intro fuel rule strat hd args loc hd2 s1 args2 s2 h1 h2
    simp [apply_to_subexprs, h1, h2]

/-- Witness for C5: the identity rule `X = X` under strategy `0` halts at
the left operand of `a + b` and that halt propagates through the `Op`
node; under the same strategy a halt at the first argument of a two-item
argument list leaves the second argument untouched with halt reset; under
strategy `all` a non-halting head and argument rebuild `f(a)` with halt
false. -/
theorem C5_fun_halt_asymmetry_witness :
    apply_to_subexprs 4 (.user {} (.var "X") (.var "X"))
        (.op .add (.sym "a") (.sym "b")) (.nth 0 0) {} =
      some (.ok (.op .add (.sym "a") (.sym "b"), true, .nth 0 0)) ∧
    apply_args 4 (.user {} (.var "X") (.var "X"))
        [.sym "a", .sym "b"] (.nth 0 0) {} =
      some (.ok ([.sym "a", .sym "b"], .nth 0 0)) ∧
    apply_to_subexprs 4 (.user {} (.var "X") (.var "X"))
        (.fn (.sym "f") [.sym "a"]) .all {} =
      some (.ok (.fn (.sym "f") [.sym "a"], false, .all)) :=
  ⟨C5_fun_halt_asymmetry.1 3 (.user {} (.var "X") (.var "X")) (.nth 0 0) .add
      (.sym "a") (.sym "b") {} (.sym "a") (.nth 0 0) rfl,
    C5_fun_halt_asymmetry.2.1 3 (.user {} (.var "X") (.var "X")) (.nth 0 0)
      (.sym "a") [.sym "b"] {} (.sym "a") (.nth 0 0) rfl,
    C5_fun_halt_asymmetry.2.2 3 (.user {} (.var "X") (.var "X")) .all
      (.sym "f") [.sym "a"] {} (.sym "f") .all [.sym "a"] .all rfl rfl⟩

/-- Claim C7: command atomicity — whenever `process_command` returns a
runtime error, the session state it hands back is exactly the state it
was given: every arm of the Rust function performs its mutations only
after all its fallible steps have succeeded. -/
theorem C7_command_atomicity (fuel : Nat) (c : Context) (cmd : Command)
    (e : RuntimeError) (c2 : Context)
    (h : Context.process_command fuel c cmd = some (.error e, c2)) : c2 = c := by
  cases cmd <;>
    simp only [Context.process_command] at h <;>
    repeat' split at h
  all_goals
    first
      | exact Option.noConfusion h
      | (simp only [Option.some.injEq, Prod.mk.injEq] at h
         exact Except.noConfusion h.1)
      | (simp only [Option.some.injEq, Prod.mk.injEq] at h
         exact h.2.symm)

/-- Witness for C7: `undo` outside a shaping session fails with
`NoShapingInPlace` and leaves the fresh session state unchanged. -/
theorem C7_command_atomicity_witness :
    Context.process_command 1 Context.new (.undoRule {}) =
      some (.error (.NoShapingInPlace {}), Context.new) ∧
    Context.new = Context.new :=
  ⟨rfl, C7_command_atomicity 1 Context.new (.undoRule {})
    (.NoShapingInPlace {}) Context.new rfl⟩

/-- Every processed command preserves the invariant that a session with
no current expression has an empty undo history. -/
theorem process_command_preserves_invariant (fuel : Nat) (c : Context)
    (cmd : Command) (r : Except RuntimeError Unit) (c2 : Context)
    (h : Context.process_command fuel c cmd = some (r, c2))
    (inv : c.current_expr = none → c.shaping_history = []) :
    c2.current_expr = none → c2.shaping_history = [] := by
  cases cmd <;>
    simp only [Context.process_command] at h <;>
    repeat' split at h
  all_goals
    first
      | exact Option.noConfusion h
      | (simp only [Option.some.injEq, Prod.mk.injEq] at h
         obtain ⟨he, hc⟩ := h
         subst hc
         first
           | exact inv
           | (intro hx; exact Option.noConfusion hx)
           | (intro _; rfl))

/-- Every session state reachable from `Context::new` satisfies: no
current expression implies empty undo history. -/
theorem reachable_invariant (c : Context) (hr : Reachable c) :
    c.current_expr = none → c.shaping_history = [] := by
  induction hr with
  | init => intro _; rfl
  | step hr hstep ih => exact process_command_preserves_invariant _ _ _ _ _ hstep ih

/-- Claim C10: in every session state reachable from the initial state by
processing commands, if `current_expr` is absent then `shaping_history`
is empty — a non-empty undo history exists only during a shaping session,
even though `StartShaping` itself never clears the history. -/
theorem C10_session_invariant (c : Context) (hr : Reachable c)
    (hnone : c.current_expr = none) : c.shaping_history = [] :=
  reachable_invariant c hr hnone

/-- Witness for C10: the initial state. -/
theorem C10_session_invariant_witness :
    Context.new.current_expr = none ∧ Context.new.shaping_history = [] :=
  ⟨rfl, C10_session_invariant Context.new Reachable.init rfl⟩



/-- Claim C8: undo cancels apply. From any reachable session state,
successfully processing `StartShaping(E)`, then an `ApplyRule` command
(any strategy name and applied rule), then `UndoRule` leaves the
session's current expression structurally equal to E with an empty
shaping history. -/
theorem C8_undo_cancels_apply (fuel : Nat) (c : Context) (E : Expr)
    (sname : String) (ar : AppliedRule) (l1 l2 l3 : Loc)
    (c1 c2 c3 : Context)
    (hr : Reachable c)
    (h1 : Context.process_command fuel c (.startShaping l1 E) = some (.ok (), c1))
    (h2 : Context.process_command fuel c1 (.applyRule l2 sname ar) = some (.ok (), c2))
    (h3 : Context.process_command fuel c2 (.undoRule l3) = some (.ok (), c3)) :
    c3.current_expr = some E ∧ c3.shaping_history = [] := by
  simp only [Context.process_command] at h1
  split at h1
  case _ => simp at h1
  case _ hcur =>
    have hhist := reachable_invariant c hr hcur
    simp only [Option.some.injEq, Prod.mk.injEq, true_and] at h1
    subst h1
    simp only [Context.process_command] at h2
    split at h2
    case _ => simp at h2
    case _ rule hmat =>
      split at h2
      case _ => simp at h2
      case _ strat hsname =>
        split at h2
        case _ => cases h2
        case _ => simp at h2
        case _ ne happ =>
          simp only [Option.some.injEq, Prod.mk.injEq, true_and] at h2
          subst h2
          simp only [Context.process_command] at h3
          simp only [List.getLast?_concat, List.dropLast_concat] at h3
          simp only [Option.some.injEq, Prod.mk.injEq, true_and] at h3
          subst h3
          exact ⟨rfl, hhist⟩

/-- Witness for C8: `shape a; apply all rule X = X; undo` in a fresh
session. -/
theorem C8_undo_cancels_apply_witness :
    shape_a_ctx.current_expr = some (.sym "a") ∧ shape_a_ctx.shaping_history = [] :=
  C8_undo_cancels_apply 8 Context.new (.sym "a") "all"
    (.anonymous {} (.var "X") (.var "X")) {} {} {}
    shape_a_ctx shape_a_applied_ctx shape_a_ctx Reachable.init rfl rfl rfl



/-- Applying a user rule can produce no runtime error: by induction on the
fuel, none of `apply_impl`, `apply_to_subexprs` and `apply_args` ever
returns an `error` when the rule is a `User` rule, since the only error
constructions sit in the `Replace` arm. -/
theorem user_rule_no_error_aux (fuel : Nat) :
    (∀ (l0 : Loc) (head body expr : Expr) (strat : Strategy) (loc : Loc)
        (res : Except RuntimeError (Expr × Bool × Strategy)),
      apply_impl fuel (.user l0 head body) expr strat loc = some res →
      ∃ x, res = .ok x) ∧
    (∀ (l0 : Loc) (head body expr : Expr) (strat : Strategy) (loc : Loc)
        (res : Except RuntimeError (Expr × Bool × Strategy)),
      apply_to_subexprs fuel (.user l0 head body) expr strat loc = some res →
      ∃ x, res = .ok x) ∧
    (∀ (l0 : Loc) (head body : Expr) (args : List Expr) (strat : Strategy) (loc : Loc)
        (res : Except RuntimeError (List Expr × Strategy)),
      apply_args fuel (.user l0 head body) args strat loc = some res →
      ∃ x, res = .ok x) := by
  induction fuel with
  | zero =>
    refine ⟨?_, ?_, ?_⟩ <;> intro l0 head body e strat loc res h <;>
      simp [apply_impl, apply_to_subexprs, apply_args] at h
  | succ n ih =>
    obtain ⟨ih1, ih2, ih3⟩ := ih
    refine ⟨?_, ?_, ?_⟩
    · intro l0 head body expr strat loc res h
      simp only [apply_impl] at h
      repeat' split at h
      all_goals
        first
          | exact Option.noConfusion h
          | exact ⟨_, (Option.some.inj h).symm⟩
          | exact ih1 _ _ _ _ _ _ _ h
          | exact ih2 _ _ _ _ _ _ _ h
          | exact ih3 _ _ _ _ _ _ _ h
          | (obtain ⟨x, hx⟩ := ih1 _ _ _ _ _ _ _ (by assumption)
             exact Except.noConfusion hx)
          | (obtain ⟨x, hx⟩ := ih3 _ _ _ _ _ _ _ (by assumption)
             exact Except.noConfusion hx)
    · intro l0 head body expr strat loc res h
      simp only [apply_to_subexprs] at h
      repeat' split at h
      all_goals
        first
          | exact Option.noConfusion h
          | exact ⟨_, (Option.some.inj h).symm⟩
          | exact ih1 _ _ _ _ _ _ _ h
          | exact ih2 _ _ _ _ _ _ _ h
          | exact ih3 _ _ _ _ _ _ _ h
          | (obtain ⟨x, hx⟩ := ih1 _ _ _ _ _ _ _ (by assumption)
             exact Except.noConfusion hx)
          | (obtain ⟨x, hx⟩ := ih3 _ _ _ _ _ _ _ (by assumption)
             exact Except.noConfusion hx)
    · intro l0 head body args strat loc res h
      simp only [apply_args] at h
      repeat' split at h
      all_goals
        first
          | exact Option.noConfusion h
          | exact ⟨_, (Option.some.inj h).symm⟩
          | exact ih1 _ _ _ _ _ _ _ h
          | exact ih3 _ _ _ _ _ _ _ h
          | (obtain ⟨x, hx⟩ := ih1 _ _ _ _ _ _ _ (by assumption)
             exact Except.noConfusion hx)
          | (obtain ⟨x, hx⟩ := ih3 _ _ _ _ _ _ _ (by assumption)
             exact Except.noConfusion hx)

/-- Claim C9: applying a User rule is infallible — whenever `Rule::apply`
on a User rule returns (i.e. does not run out of fuel), it returns `Ok`;
consequently a runtime error can arise from `Rule::apply` only when the
rule being applied is the built-in `Replace` meta-rule. -/
theorem C9_user_rule_infallible :
    (∀ (fuel : Nat) (l0 : Loc) (head body expr : Expr) (strat : Strategy)
        (loc : Loc) (res : Except RuntimeError Expr),
      Rule.apply fuel (.user l0 head body) expr strat loc = some res →
      ∃ x, res = .ok x) ∧
    (∀ (fuel : Nat) (rule : Rule) (expr : Expr) (strat : Strategy) (loc : Loc)
        (e : RuntimeError),
      Rule.apply fuel rule expr strat loc = some (.error e) → rule = .replace) := by
  have key : ∀ (fuel : Nat) (l0 : Loc) (head body expr : Expr) (strat : Strategy)
      (loc : Loc) (res : Except RuntimeError Expr),
      Rule.apply fuel (.user l0 head body) expr strat loc = some res →
      ∃ x, res = .ok x := by
    intro fuel l0 head body expr strat loc res h
    simp only [Rule.apply] at h
    split at h
    case _ => exact Option.noConfusion h
    case _ e heq =>
      obtain ⟨x, hx⟩ := (user_rule_no_error_aux fuel).1 _ _ _ _ _ _ _ heq
      exact Except.noConfusion hx
    case _ => exact ⟨_, (Option.some.inj h).symm⟩
  constructor
  · exact key
  · intro fuel rule expr strat loc e h
    cases rule with
    | replace => rfl
    | user l0 head body =>
      obtain ⟨x, hx⟩ := key fuel l0 head body expr strat loc (.error e) h
      exact Except.noConfusion hx

theorem C9_user_rule_infallible_witness :
    (∃ x, (Except.ok (Expr.sym "a") : Except RuntimeError Expr) = .ok x) ∧
    Rule.replace = Rule.replace :=
  ⟨C9_user_rule_infallible.1 4 {} (.var "X") (.var "X") (.sym "a") .all {}
      (.ok (.sym "a")) rfl,
    C9_user_rule_infallible.2 2 .replace
      (.fn (.sym "apply_rule") [.var "S", .sym "h", .sym "b", .sym "e"]) .all {}
      (.StrategyIsNotSym (.var "S") {}) rfl⟩

end Noq
